import Mathlib

/-!
# ISO 8211 declarations (`Documents/iso8211.h`)

A shallow embedding of the declarations of `iso8211.h`: the constants, the
enumerations, the two raw (all-ASCII) leader overlays, the decoded leader, the
directory entry structs, the format unit, the decoded-value union and the table
of public functions.  A struct made of `char` arrays is embedded as the ordered
list of its members with their declared widths; `char` has alignment 1, so a
member starts where the previous one ends and a member's offset is the sum of
the widths before it.

The header declares the parsers but the repository does not define them.  The
format grammar parser, which decides what format units exist, is written here
from section 4.3 of the specification; each definition that comes from the
specification and not from the header says so.
-/

namespace ISO8211

/-! ## Constants -/

/-- The macro `LEADER_LENGTH` (line 11). -/
def LEADER_LENGTH : Nat := 24

/-- The macro `FIELD_TERM`, the character constant written `\36` in octal (line 18). -/
def FIELD_TERM : Char := Char.ofNat 0o36

/-- The macro `UNIT_TERM`, the character constant written `\37` in octal (line 19). -/
def UNIT_TERM : Char := Char.ofNat 0o37

/-! ## Enumerations -/

/-- The enumeration `structure_type` (lines 35-40). -/
inductive structure_type
  | ELEMENTARY
  | VECTOR
  | ARRAY
deriving DecidableEq

/-- The enumeration `data_type` (lines 43-52). -/
inductive data_type
  | CHAR
  | INT
  | FLOAT
  | EXP_FLOAT
  | CHAR_BIT_STRING
  | BITFIELD
  | IGNORE
deriving DecidableEq

/-- The enumerators of `data_type` in declaration order. -/
def data_type.members : List data_type :=
  [.CHAR, .INT, .FLOAT, .EXP_FLOAT, .CHAR_BIT_STRING, .BITFIELD, .IGNORE]

/-- The integer value of an enumerator: no enumerator of `data_type` has an
initialiser, so the first is 0 and each next one is one more. -/
def data_type.code : data_type → Nat
  | .CHAR => 0
  | .INT => 1
  | .FLOAT => 2
  | .EXP_FLOAT => 3
  | .CHAR_BIT_STRING => 4
  | .BITFIELD => 5
  | .IGNORE => 6

/-- The type letters as the comment on `uda_entry.type` lists them (line 315):
`A,I,R,S,C,B, or X`. -/
def type_letters : List Char := ['A', 'I', 'R', 'S', 'C', 'B', 'X']

/-! ## Raw leader overlays -/

/-- One member `char name[width]` of an all-ASCII overlay struct. -/
structure char_member where
  name : String
  width : Nat
deriving DecidableEq

/-- The struct `ascii_ddr_leader` (lines 74-93). -/
def ascii_ddr_leader : List char_member :=
  [ ⟨"record_length", 5⟩,
    ⟨"interchange_level", 1⟩,
    ⟨"leader_id", 1⟩,
    ⟨"extension_flag", 1⟩,
    ⟨"res1", 1⟩,
    ⟨"application_flag", 1⟩,
    ⟨"field_control_length", 2⟩,
    ⟨"dda_base", 5⟩,
    ⟨"extended", 3⟩,
    ⟨"length_size", 1⟩,
    ⟨"position_size", 1⟩,
    ⟨"res2", 1⟩,
    ⟨"tag_size", 1⟩ ]

/-- The struct `ascii_dr_leader` (lines 243-256). -/
def ascii_dr_leader : List char_member :=
  [ ⟨"record_length", 5⟩,
    ⟨"res1", 1⟩,
    ⟨"leader_id", 1⟩,
    ⟨"res2", 5⟩,
    ⟨"data_base", 5⟩,
    ⟨"res3", 3⟩,
    ⟨"length_size", 1⟩,
    ⟨"position_size", 1⟩,
    ⟨"res4", 1⟩,
    ⟨"tag_size", 1⟩ ]

/-- The members of `ascii_dr_leader` whose comment reads `reserved`
(lines 247, 249, 251, 254). -/
def ascii_dr_leader_reserved : List String := ["res1", "res2", "res3", "res4"]

/-- Size in bytes of an overlay struct: the sum of its members' widths. -/
def overlay_size (s : List char_member) : Nat :=
  (s.map char_member.width).sum

/-- Width of the member called `n`, when the struct has one. -/
def member_width (s : List char_member) (n : String) : Option Nat :=
  (s.find? fun m => m.name == n).map char_member.width

/-- Byte offset of the member called `n`: the widths of the members declared
before it, summed. -/
def member_offset : List char_member → String → Option Nat
  | [], _ => none
  | m :: rest, n =>
    if m.name == n then some 0 else (member_offset rest n).map (m.width + ·)

/-- Name of the member that holds byte `b` of the struct. -/
def member_at : List char_member → Nat → Option String
  | [], _ => none
  | m :: rest, b => if b < m.width then some m.name else member_at rest (b - m.width)

/-! ## Decoded structs -/

/-- The C types of the members of the structs and of the union embedded here. -/
inductive c_type
  | int
  | double
  | char_array (n : Nat)
  | char_ptr
  | int_ptr
  | void_ptr
  | self_ptr
deriving DecidableEq

/-- One member of a decoded struct; `self_ptr` is a pointer to the struct
being declared (the `next` link of a list node). -/
structure member where
  name : String
  type : c_type
deriving DecidableEq

/-- The struct `dr_leader` (lines 258-270). -/
def dr_leader : List member :=
  [ ⟨"record_length", .int⟩,
    ⟨"res1", .char_array 2⟩,
    ⟨"leader_id", .char_array 2⟩,
    ⟨"res2", .char_array 6⟩,
    ⟨"data_base", .int⟩,
    ⟨"res3", .char_array 4⟩,
    ⟨"length_size", .int⟩,
    ⟨"position_size", .int⟩,
    ⟨"res4", .int⟩,
    ⟨"tag_size", .int⟩ ]

/-- Member list of the struct `ddr_entry` (lines 132-140). -/
def ddr_entry_members : List member :=
  [⟨"tag", .char_ptr⟩, ⟨"length", .int⟩, ⟨"position", .int⟩, ⟨"next", .self_ptr⟩]

/-- Member list of the struct `dr_entry` (lines 289-297). -/
def dr_entry_members : List member :=
  [⟨"tag", .char_ptr⟩, ⟨"length", .int⟩, ⟨"position", .int⟩, ⟨"next", .self_ptr⟩]

/-- A node of the DDR directory list, the struct `ddr_entry`: `tag` is a C
string, `length` and `position` are `int`, `next` is the rest of the list
(`none` for a null pointer). -/
inductive ddr_entry
  | mk (tag : String) (length : Int) (position : Int) (next : Option ddr_entry)

/-- A node of the DR directory list, the struct `dr_entry`. -/
inductive dr_entry
  | mk (tag : String) (length : Int) (position : Int) (next : Option dr_entry)

/-- Read a DDR directory node as a DR directory node, member by member. -/
def ddr_entry.to_dr : ddr_entry → dr_entry
  | .mk t l p none => .mk t l p none
  | .mk t l p (some n) => .mk t l p (some n.to_dr)

/-- Read a DR directory node as a DDR directory node, member by member. -/
def dr_entry.to_ddr : dr_entry → ddr_entry
  | .mk t l p none => .mk t l p none
  | .mk t l p (some n) => .mk t l p (some n.to_ddr)

/-- The `tag` member of a `ddr_entry`. -/
def ddr_entry.tag : ddr_entry → String
  | .mk t _ _ _ => t

/-- The `length` member of a `ddr_entry`. -/
def ddr_entry.length : ddr_entry → Int
  | .mk _ l _ _ => l

/-- The `position` member of a `ddr_entry`. -/
def ddr_entry.position : ddr_entry → Int
  | .mk _ _ p _ => p

/-- The `next` member of a `ddr_entry`. -/
def ddr_entry.next : ddr_entry → Option ddr_entry
  | .mk _ _ _ n => n

/-- The `tag` member of a `dr_entry`. -/
def dr_entry.tag : dr_entry → String
  | .mk t _ _ _ => t

/-- The `length` member of a `dr_entry`. -/
def dr_entry.length : dr_entry → Int
  | .mk _ l _ _ => l

/-- The `position` member of a `dr_entry`. -/
def dr_entry.position : dr_entry → Int
  | .mk _ _ p _ => p

/-- The `next` member of a `dr_entry`. -/
def dr_entry.next : dr_entry → Option dr_entry
  | .mk _ _ _ n => n

/-! ## The decoded-value union -/

/-- The members of the anonymous union `uda_entry.data` (lines 316-323). -/
inductive data_member
  | cp
  | i
  | d
  | bf
  | ignore
deriving DecidableEq

/-- The members of `uda_entry.data` in declaration order. -/
def data_member.members : List data_member := [.cp, .i, .d, .bf, .ignore]

/-- The declared C type of each member of `uda_entry.data`. -/
def data_member.type : data_member → c_type
  | .cp => .char_ptr
  | .i => .int
  | .d => .double
  | .bf => .int_ptr
  | .ignore => .void_ptr

/-- The union member that carries a value of each data type, as the comment on
each member of `uda_entry.data` says (lines 318-322): `cp` is for CHAR, `i` for
INT, `d` for FLOAT and EXP_FLOAT, `bf` for BITFIELD and CHAR_BIT_STRING,
`ignore` for IGNORE. -/
def data_member.of_type : data_type → data_member
  | .CHAR => .cp
  | .INT => .i
  | .FLOAT => .d
  | .EXP_FLOAT => .d
  | .CHAR_BIT_STRING => .bf
  | .BITFIELD => .bf
  | .IGNORE => .ignore

/-- The five payload shapes of a decoded value, in the words of the
specification. -/
inductive payload_kind
  | string
  | integer
  | floating
  | bit_pattern
  | opaque_payload
deriving DecidableEq

/-- The payload shape a union member holds, read off its C type: a C string,
an `int`, a `double`, a pointer to bit words, an untyped pointer. -/
def data_member.kind : data_member → payload_kind
  | .cp => .string
  | .i => .integer
  | .d => .floating
  | .bf => .bit_pattern
  | .ignore => .opaque_payload

/-! ## Public functions -/

/-- The struct tags that the public functions return pointers to, and
`uda_entry`, the node of the decoded-value list. -/
inductive struct_tag
  | ddr_leader
  | ddr_entry
  | dda_entry
  | dr_leader
  | dr_entry
  | uda_entry
deriving DecidableEq

/-- The public functions (lines 334-340). -/
inductive public_function
  | parse_ddr_leader
  | parse_ddr_directory
  | parse_dda
  | parse_ddr
  | parse_dr_leader
  | parse_dr_directory
  | parse_dr
deriving DecidableEq

/-- The struct each public function is declared to return a pointer to
(lines 334-340). -/
def public_function.return_type : public_function → struct_tag
  | .parse_ddr_leader => .ddr_leader
  | .parse_ddr_directory => .ddr_entry
  | .parse_dda => .dda_entry
  | .parse_ddr => .dda_entry
  | .parse_dr_leader => .dr_leader
  | .parse_dr_directory => .dr_entry
  | .parse_dr => .dr_entry

/-! ## Format units -/

/-- The value an `int` holds once a number is stored in it: `int` is 32 bits
wide in two's complement, so the number is taken modulo 2^32 into the range
from -2^31 to 2^31 - 1. -/
def to_int (n : Int) : Int := (n + 2 ^ 31) % 2 ^ 32 - 2 ^ 31

/-- The struct `format` (lines 196-202) without its `next` link (a format list
is a `List format`): `type` holds one of the `data_type` enumerators, `length`
is an `int`, `delimiter` a `char`.  Whatever is stored in `length` goes through
`to_int`, so the member never holds a value outside the range of `int`. -/
structure format where
  type : data_type
  length : Int
  delimiter : Char
deriving DecidableEq

/-- The zero `char`, the value of `delimiter` in a unit that has none. -/
def NUL : Char := Char.ofNat 0

/-- The rule the comment on `format` states (lines 189-199): `length` and
`delimiter` are not both nonzero. -/
def format.invariant (u : format) : Prop :=
  ¬ (u.length ≠ 0 ∧ u.delimiter ≠ NUL)

instance (u : format) : Decidable u.invariant :=
  inferInstanceAs (Decidable (¬ (u.length ≠ 0 ∧ u.delimiter ≠ NUL)))

/-- The three shapes of a format unit: fixed width (only `length` nonzero),
explicitly delimited (only `delimiter` nonzero), or delimited by the unit
terminator (both zero). -/
def format.shape_ok (u : format) : Prop :=
  (u.length ≠ 0 ∧ u.delimiter = NUL) ∨ (u.length = 0 ∧ u.delimiter ≠ NUL) ∨
    (u.length = 0 ∧ u.delimiter = NUL)

instance (u : format) : Decidable u.shape_ok :=
  inferInstanceAs (Decidable ((u.length ≠ 0 ∧ u.delimiter = NUL) ∨
    (u.length = 0 ∧ u.delimiter ≠ NUL) ∨ (u.length = 0 ∧ u.delimiter = NUL)))

/-! ## The format grammar parser

`iso8211.h` declares `parse_dda` and the globals `formatlist` and `repeatlist`
it fills, but the repository holds no definition of them.  The parser below is
written from section 4.3 of the specification. -/

/-- Modelled from the spec: the error kinds of section 7 (no error type is
declared in `iso8211.h`). -/
inductive error_kind
  | MalformedLeader
  | TruncatedDirectory
  | MalformedDirectory
  | InvalidFormatSpec
  | InvalidLabel
  | UnknownStructureCode
  | DuplicateTag
  | UnknownFieldTag
  | FieldOverrun
  | FieldUnderrun
  | UnsupportedDataType
deriving DecidableEq

deriving instance DecidableEq for Except

/-- Modelled from the spec: the type letters of section 4.3, `A=CHAR, I=INT,
R=FLOAT, S=EXP_FLOAT, C=CHAR_BIT_STRING, B=BITFIELD, X=IGNORE` (the lexer that
reads them is not in the repository); any other character is an unknown type
letter. -/
def letter_type (c : Char) : Option data_type :=
  if c = 'A' then some .CHAR
  else if c = 'I' then some .INT
  else if c = 'R' then some .FLOAT
  else if c = 'S' then some .EXP_FLOAT
  else if c = 'C' then some .CHAR_BIT_STRING
  else if c = 'B' then some .BITFIELD
  else if c = 'X' then some .IGNORE
  else none

/-- The letter at the position of a data type's code in `type_letters`. -/
def data_type.letter (t : data_type) : Char :=
  type_letters.getD t.code 'A'

/-- Value of one ASCII decimal digit. -/
def digit_value (c : Char) : Nat := c.toNat - 48

/-- Modelled from the spec: the number a run of ASCII decimal digits denotes
(the repeat count and the fixed width of section 4.3 are decimal). -/
def decimal_value (ds : List Char) : Nat :=
  ds.foldl (fun acc c => 10 * acc + digit_value c) 0

/-- A digit run that is the decimal writing of `n`: not empty, digits only,
and read back as `n`. -/
def writes (ds : List Char) (n : Nat) : Prop :=
  ds ≠ [] ∧ (∀ c ∈ ds, c.isDigit = true) ∧ decimal_value ds = n

/-- One top-level element of a format spec after its inner repeat counts are
expanded: the leading repeat count (1 when none is written), the units of one
copy, and whether it is a parenthesised group. -/
structure format_item where
  count : Nat
  body : List format
  is_group : Bool
deriving DecidableEq

/-- Modelled from the spec: `N literal copies` of a unit sequence (section 4.3),
one after the other. -/
def repeat_units : Nat → List format → List format
  | 0, _ => []
  | n + 1, us => us ++ repeat_units n us

/-- Modelled from the spec: a leading repeat count N expands to N literal
copies (section 4.3); the items are expanded in order. -/
def expand : List format_item → List format
  | [] => []
  | it :: rest => repeat_units it.count it.body ++ expand rest

/-- Modelled from the spec: what may follow a type letter (section 4.3), `a
parenthesised fixed width, a parenthesised delimiter character, or nothing`.
After `(`, a run of digits closed by `)` is a fixed width, stored in the `int`
member `length`; one character that
is no digit, closed by `)`, is a delimiter; digits followed by a further
character before `)` declare both a length and a delimiter, which is
`InvalidFormatSpec`, as is a parenthesis that is not closed.  With no `(` the
unit is delimited by the terminator and both members are zero. -/
def parse_unit_tail (t : data_type) : List Char → Except error_kind (format × List Char)
  | [] => .ok (⟨t, 0, NUL⟩, [])
  | c :: r =>
    if c = '(' then
      if r.takeWhile Char.isDigit ≠ [] then
        match r.dropWhile Char.isDigit with
        | [] => .error .InvalidFormatSpec
        | c1 :: r1 =>
          if c1 = ')' then .ok (⟨t, to_int (decimal_value (r.takeWhile Char.isDigit)), NUL⟩, r1)
          else .error .InvalidFormatSpec
      else
        match r with
        | d :: c1 :: r1 =>
          if c1 = ')' then .ok (⟨t, 0, d⟩, r1) else .error .InvalidFormatSpec
        | _ => .error .InvalidFormatSpec
    else .ok (⟨t, 0, NUL⟩, c :: r)

/-- Modelled from the spec: the `optional decimal repeat count` of section 4.3,
given the digits written in front of an item; 1 when there are none. -/
def repeat_count (ds : List Char) : Nat :=
  if ds = [] then 1 else decimal_value ds

/-- Modelled from the spec: the items of one nesting level of a format spec
(section 4.3), read up to the end of the input or to the `)` that closes the
level; what is left of the input is returned with them.  An item is an optional
decimal repeat count followed by a unit (a type letter and its tail) or by a
parenthesised group, whose inner items are expanded in place.  An unknown type
letter and an unclosed group are `InvalidFormatSpec`.  The first argument
bounds the number of items read; `parse_format` passes more than the input's
length, and every item takes at least one character. -/
def parse_items : Nat → List Char → Except error_kind (List format_item × List Char)
  | 0, _ => .error .InvalidFormatSpec
  | _ + 1, [] => .ok ([], [])
  | fuel + 1, c0 :: s0 =>
    if c0 = ')' then .ok ([], c0 :: s0)
    else
      let count := repeat_count ((c0 :: s0).takeWhile Char.isDigit)
      match (c0 :: s0).dropWhile Char.isDigit with
      | [] => .error .InvalidFormatSpec
      | c :: r =>
        if c = '(' then
          match parse_items fuel r with
          | .error e => .error e
          | .ok (_, []) => .error .InvalidFormatSpec
          | .ok (inner, c1 :: r1) =>
            if c1 = ')' then
              match parse_items fuel r1 with
              | .error e => .error e
              | .ok (rest, r2) => .ok (⟨count, expand inner, true⟩ :: rest, r2)
            else .error .InvalidFormatSpec
        else
          match letter_type c with
          | none => .error .InvalidFormatSpec
          | some t =>
            match parse_unit_tail t r with
            | .error e => .error e
            | .ok (u, r1) =>
              match parse_items fuel r1 with
              | .error e => .error e
              | .ok (rest, r2) => .ok (⟨count, [u], false⟩ :: rest, r2)

/-- Modelled from the spec: the unit sequence and the index where the final
group begins (section 4.3).  When the spec ends in a parenthesised group, that
group is the final group: its repeat count is ignored and the index is the
number of units before it.  When it does not, the whole sequence is the
repeating tail and the index is 0. -/
def layout (items : List format_item) : List format × Nat :=
  match items.getLast? with
  | none => ([], 0)
  | some last =>
    if last.is_group then
      (expand items.dropLast ++ last.body, (expand items.dropLast).length)
    else (expand items, 0)

/-- Modelled from the spec: the Format Grammar Parser of section 4.3, the part
of `parse_dda` that fills `formatlist` and `repeatlist`.  The input is a format
string, read up to the field terminator when it has one; the result is the
ordered unit sequence with the index where the final group begins.  A `)` with
no group open is `InvalidFormatSpec` (unbalanced parentheses). -/
def parse_format (s : List Char) : Except error_kind (List format × Nat) :=
  match parse_items ((s.takeWhile (· != FIELD_TERM)).length + 1)
      (s.takeWhile (· != FIELD_TERM)) with
  | .error e => .error e
  | .ok (items, []) => .ok (layout items)
  | .ok (_, _ :: _) => .error .InvalidFormatSpec

/-- The items a whole string holds when it is read as one nesting level and
nothing of it is left over. -/
def level_items (s : List Char) : Option (List format_item) :=
  match parse_items (s.length + 1) s with
  | .ok (items, []) => some items
  | _ => none

/-- Put the items already read in front of the result of reading on. -/
def prepend_items (items : List format_item) :
    Except error_kind (List format_item × List Char) →
      Except error_kind (List format_item × List Char)
  | .ok (more, r) => .ok (items ++ more, r)
  | .error e => .error e

/-- The text of a counted fixed-width unit: the count `N` in decimal, the type
letter, and the width `w` in decimal between parentheses, as in `4I(7)`. -/
def counted_unit (N : Nat) (t : data_type) (w : Nat) : List Char :=
  Nat.toDigits 10 N ++ t.letter :: '(' :: (Nat.toDigits 10 w ++ [')'])

/-- Whether the last item of a sequence is a parenthesised group. -/
def ends_in_group (items : List format_item) : Bool :=
  match items.getLast? with
  | some last => last.is_group
  | none => false

/-- Offset and width of the member called `n`. -/
def placement (s : List char_member) (n : String) : Option (Nat × Nat) :=
  match member_offset s n, member_width s n with
  | some o, some w => some (o, w)
  | _, _ => none

/-- A printable ASCII character: code 0x20 to 0x7E. -/
def printable (c : Char) : Prop := 0x20 ≤ c.toNat ∧ c.toNat ≤ 0x7E

instance (c : Char) : Decidable (printable c) :=
  inferInstanceAs (Decidable (0x20 ≤ c.toNat ∧ c.toNat ≤ 0x7E))

/-- The printable characters the format and label grammars use: the decimal
digits, the type letters, the vector separator and the parentheses. -/
def grammar_chars : List Char :=
  ['0', '1', '2', '3', '4', '5', '6', '7', '8', '9'] ++ type_letters ++ ['!', '(', ')']


/-! ## Theorems -/

/-- C1: both raw leader layouts are exactly 24 bytes: the member widths of
`ascii_ddr_leader` sum to `LEADER_LENGTH`, so do those of `ascii_dr_leader`,
and `LEADER_LENGTH` is 24. -/
theorem leader_layouts_fill_leader_length :
    overlay_size ascii_ddr_leader = LEADER_LENGTH ∧
    overlay_size ascii_dr_leader = LEADER_LENGTH ∧
    LEADER_LENGTH = 24 := by
  decide

/-- C2: in `ascii_ddr_leader`, `record_length` is 5 bytes wide,
`field_control_length` 2, `dda_base` 5, `extended` 3, and `length_size`,
`position_size` and `tag_size` 1 byte each. -/
theorem ascii_ddr_leader_widths :
    member_width ascii_ddr_leader "record_length" = some 5 ∧
    member_width ascii_ddr_leader "field_control_length" = some 2 ∧
    member_width ascii_ddr_leader "dda_base" = some 5 ∧
    member_width ascii_ddr_leader "extended" = some 3 ∧
    member_width ascii_ddr_leader "length_size" = some 1 ∧
    member_width ascii_ddr_leader "position_size" = some 1 ∧
    member_width ascii_ddr_leader "tag_size" = some 1 := by
  decide

/-- C3: `FIELD_TERM` is the byte 0x1E (30) and `UNIT_TERM` the byte 0x1F (31);
they differ, both are below 0x20, and no printable ASCII character equals
either of them; the digits, the type letters, `!` and the parentheses are
printable. -/
theorem terminators_are_control_bytes :
    FIELD_TERM.toNat = 0x1E ∧ FIELD_TERM.toNat = 30 ∧
    UNIT_TERM.toNat = 0x1F ∧ UNIT_TERM.toNat = 31 ∧
    FIELD_TERM ≠ UNIT_TERM ∧
    FIELD_TERM.toNat < 0x20 ∧ UNIT_TERM.toNat < 0x20 ∧
    (∀ c ∈ grammar_chars, printable c) ∧
    (∀ c : Char, printable c → c ≠ FIELD_TERM ∧ c ≠ UNIT_TERM) := by
  refine ⟨by decide, by decide, by decide, by decide, by decide, by decide, by decide,
    by decide, ?_⟩
  intro c hc
  constructor
  · intro h
    rw [h] at hc
    exact absurd hc (by decide)
  · intro h
    rw [h] at hc
    exact absurd hc (by decide)

/-- The type letter `I` is printable and is neither terminator. -/
theorem terminators_are_control_bytes_witness :
    printable 'I' ∧ 'I' ≠ FIELD_TERM ∧ 'I' ≠ UNIT_TERM :=
  ⟨by decide, terminators_are_control_bytes.2.2.2.2.2.2.2.2 'I' (by decide)⟩

/-- C6: `data_type` has exactly the seven members CHAR, INT, FLOAT, EXP_FLOAT,
CHAR_BIT_STRING, BITFIELD, IGNORE, with pairwise distinct codes (0 to 6 in
that order); the seven letters A, I, R, S, C, B, X are distinct and the letter
table sends them, in that order, to the seven members, each type having
exactly one letter. -/
theorem data_type_letters_one_to_one :
    data_type.members.length = 7 ∧
    data_type.members.Nodup ∧
    (∀ t : data_type, t ∈ data_type.members) ∧
    data_type.members.map data_type.code = [0, 1, 2, 3, 4, 5, 6] ∧
    Function.Injective data_type.code ∧
    type_letters.length = 7 ∧
    type_letters.Nodup ∧
    type_letters.map letter_type = data_type.members.map some ∧
    (letter_type 'A' = some .CHAR ∧ letter_type 'I' = some .INT ∧
      letter_type 'R' = some .FLOAT ∧ letter_type 'S' = some .EXP_FLOAT ∧
      letter_type 'C' = some .CHAR_BIT_STRING ∧ letter_type 'B' = some .BITFIELD ∧
      letter_type 'X' = some .IGNORE) ∧
    (∀ t : data_type, letter_type t.letter = some t) ∧
    (∀ (c : Char) (t : data_type), letter_type c = some t → c = t.letter) := by
  refine ⟨by decide, by decide, ?_, by decide, ?_, by decide, by decide, by decide,
    by decide, ?_, ?_⟩
  · intro t
    cases t <;> decide
  · intro a b h
    cases a <;> cases b <;> first | rfl | exact absurd h (by decide)
  · intro t
    cases t <;> decide
  · intro c t h
    unfold letter_type at h
    split_ifs at h with h1 h2 h3 h4 h5 h6 h7 <;> (cases h; subst c; decide)

/-- The letter `S` is read as EXP_FLOAT, and `S` is the letter at EXP_FLOAT's
position in the letter list. -/
theorem data_type_letters_one_to_one_witness :
    letter_type 'S' = some .EXP_FLOAT ∧ 'S' = data_type.EXP_FLOAT.letter :=
  ⟨by decide, data_type_letters_one_to_one.2.2.2.2.2.2.2.2.2.2 'S' .EXP_FLOAT (by decide)⟩

/-- C7: the union `uda_entry.data` has exactly five members, which are the five
payload shapes string, integer, floating, bit-pattern and opaque one for one;
CHAR selects `cp` (string), INT `i` (integer), FLOAT and EXP_FLOAT `d`
(floating), CHAR_BIT_STRING and BITFIELD `bf` (bit-pattern), IGNORE `ignore`
(opaque); every data type selects a member and every member is selected. -/
theorem payload_selected_by_data_type :
    data_member.members.length = 5 ∧
    data_member.members.Nodup ∧
    (∀ m : data_member, m ∈ data_member.members) ∧
    Function.Bijective data_member.kind ∧
    (data_member.of_type .CHAR = .cp ∧ data_member.cp.kind = .string) ∧
    (data_member.of_type .INT = .i ∧ data_member.i.kind = .integer) ∧
    (data_member.of_type .FLOAT = .d ∧ data_member.of_type .EXP_FLOAT = .d ∧
      data_member.d.kind = .floating) ∧
    (data_member.of_type .CHAR_BIT_STRING = .bf ∧ data_member.of_type .BITFIELD = .bf ∧
      data_member.bf.kind = .bit_pattern) ∧
    (data_member.of_type .IGNORE = .ignore ∧ data_member.ignore.kind = .opaque_payload) ∧
    (∀ t ∈ data_type.members, ∃ m, data_member.of_type t = m) ∧
    Function.Surjective data_member.of_type ∧
    Function.Surjective (data_member.kind ∘ data_member.of_type) := by
  refine ⟨by decide, by decide, ?_, ⟨?_, ?_⟩, by decide, by decide, by decide, by decide,
    by decide, fun t _ => ⟨_, rfl⟩, ?_, ?_⟩
  · intro m
    cases m <;> decide
  · intro a b h
    cases a <;> cases b <;> first | rfl | exact absurd h (by decide)
  · intro k
    cases k
    · exact ⟨.cp, rfl⟩
    · exact ⟨.i, rfl⟩
    · exact ⟨.d, rfl⟩
    · exact ⟨.bf, rfl⟩
    · exact ⟨.ignore, rfl⟩
  · intro m
    cases m
    · exact ⟨.CHAR, rfl⟩
    · exact ⟨.INT, rfl⟩
    · exact ⟨.FLOAT, rfl⟩
    · exact ⟨.BITFIELD, rfl⟩
    · exact ⟨.IGNORE, rfl⟩
  · intro k
    cases k
    · exact ⟨.CHAR, rfl⟩
    · exact ⟨.INT, rfl⟩
    · exact ⟨.EXP_FLOAT, rfl⟩
    · exact ⟨.CHAR_BIT_STRING, rfl⟩
    · exact ⟨.IGNORE, rfl⟩

/-- C8 (the declaration as written): `parse_dr` is declared to return a pointer
to `dr_entry`, the directory entry struct that `parse_dr_directory` returns,
and not to `uda_entry`; on the DDR side `parse_ddr` returns `dda_entry`, which
is not the struct `parse_ddr_directory` returns. -/
theorem parse_dr_declared_to_return_dr_entry :
    public_function.parse_dr.return_type = .dr_entry ∧
    public_function.parse_dr.return_type = public_function.parse_dr_directory.return_type ∧
    public_function.parse_dr.return_type ≠ .uda_entry ∧
    public_function.parse_ddr.return_type = .dda_entry ∧
    public_function.parse_ddr.return_type ≠ public_function.parse_ddr_directory.return_type ∧
    (∀ f : public_function, f.return_type ≠ .uda_entry) := by
  refine ⟨by decide, by decide, by decide, by decide, by decide, ?_⟩
  intro f
  cases f <;> decide

/-- Reading a DDR directory list as a DR directory list and back gives the
list again. -/
theorem ddr_entry.to_dr_to_ddr : ∀ e : ddr_entry, e.to_dr.to_ddr = e
  | .mk t l p none => by simp [ddr_entry.to_dr, dr_entry.to_ddr]
  | .mk t l p (some n) => by
    simp [ddr_entry.to_dr, dr_entry.to_ddr, ddr_entry.to_dr_to_ddr n]

/-- Reading a DR directory list as a DDR directory list and back gives the
list again. -/
theorem dr_entry.to_ddr_to_dr : ∀ e : dr_entry, e.to_ddr.to_dr = e
  | .mk t l p none => by simp [ddr_entry.to_dr, dr_entry.to_ddr]
  | .mk t l p (some n) => by
    simp [ddr_entry.to_dr, dr_entry.to_ddr, dr_entry.to_ddr_to_dr n]

/-- C9: `dr_entry` and `ddr_entry` have the same members in the same order with
the same types, `tag` (string), `length` (int), `position` (int) and the
`next` link, and reading a node of one as a node of the other is a bijection
that keeps every member. -/
theorem dr_entry_same_as_ddr_entry :
    dr_entry_members = ddr_entry_members ∧
    ddr_entry_members =
      [⟨"tag", .char_ptr⟩, ⟨"length", .int⟩, ⟨"position", .int⟩, ⟨"next", .self_ptr⟩] ∧
    (∀ e : ddr_entry, e.to_dr.to_ddr = e) ∧
    (∀ e : dr_entry, e.to_ddr.to_dr = e) ∧
    Function.Bijective ddr_entry.to_dr ∧
    (∀ e : ddr_entry, e.to_dr.tag = e.tag ∧ e.to_dr.length = e.length ∧
      e.to_dr.position = e.position ∧ e.to_dr.next = e.next.map ddr_entry.to_dr) := by
  refine ⟨by decide, by decide, ddr_entry.to_dr_to_ddr, dr_entry.to_ddr_to_dr, ⟨?_, ?_⟩, ?_⟩
  · intro a b h
    have := congrArg dr_entry.to_ddr h
    rwa [ddr_entry.to_dr_to_ddr, ddr_entry.to_dr_to_ddr] at this
  · intro e
    exact ⟨e.to_ddr, dr_entry.to_ddr_to_dr e⟩
  · intro e
    match e with
    | .mk t l p none => simp [ddr_entry.to_dr, dr_entry.tag, dr_entry.length,
        dr_entry.position, dr_entry.next, ddr_entry.tag, ddr_entry.length,
        ddr_entry.position, ddr_entry.next]
    | .mk t l p (some n) => simp [ddr_entry.to_dr, dr_entry.tag, dr_entry.length,
        dr_entry.position, dr_entry.next, ddr_entry.tag, ddr_entry.length,
        ddr_entry.position, ddr_entry.next]

/-- C10: `record_length`, `leader_id`, the base offset (`dda_base`,
`data_base`), `length_size`, `position_size` and `tag_size` sit at the same
offset with the same width in `ascii_ddr_leader` and `ascii_dr_leader` (0/5,
6/1, 12/5, 20/1, 21/1, 23/1); the other bytes of the DR layout are 5, 7-11,
17-19 and 22 and each belongs to a reserved member; neither `ascii_dr_leader`
nor `dr_leader` has a member `interchange_level` or `field_control_length`. -/
theorem dr_leader_layout_agrees_with_ddr :
    (placement ascii_ddr_leader "record_length" = some (0, 5) ∧
      placement ascii_dr_leader "record_length" = some (0, 5)) ∧
    (placement ascii_ddr_leader "leader_id" = some (6, 1) ∧
      placement ascii_dr_leader "leader_id" = some (6, 1)) ∧
    (placement ascii_ddr_leader "dda_base" = some (12, 5) ∧
      placement ascii_dr_leader "data_base" = some (12, 5)) ∧
    (placement ascii_ddr_leader "length_size" = some (20, 1) ∧
      placement ascii_dr_leader "length_size" = some (20, 1)) ∧
    (placement ascii_ddr_leader "position_size" = some (21, 1) ∧
      placement ascii_dr_leader "position_size" = some (21, 1)) ∧
    (placement ascii_ddr_leader "tag_size" = some (23, 1) ∧
      placement ascii_dr_leader "tag_size" = some (23, 1)) ∧
    (List.range LEADER_LENGTH).filter (fun b =>
        decide (member_at ascii_dr_leader b ∉ ["record_length", "leader_id", "data_base",
          "length_size", "position_size", "tag_size"].map some)) =
      [5, 7, 8, 9, 10, 11, 17, 18, 19, 22] ∧
    (∀ b ∈ [5, 7, 8, 9, 10, 11, 17, 18, 19, 22],
      member_at ascii_dr_leader b ∈ ascii_dr_leader_reserved.map some) ∧
    "interchange_level" ∉ ascii_dr_leader.map char_member.name ∧
    "field_control_length" ∉ ascii_dr_leader.map char_member.name ∧
    "interchange_level" ∉ dr_leader.map member.name ∧
    "field_control_length" ∉ dr_leader.map member.name ∧
    "interchange_level" ∈ ascii_ddr_leader.map char_member.name ∧
    "field_control_length" ∈ ascii_ddr_leader.map char_member.name := by
  refine ⟨by decide, by decide, by decide, by decide, by decide, by decide, by decide,
    by decide, by decide, by decide, by decide, by decide, by decide, by decide⟩

/-! ### The unit invariant through the format parser -/

/-- The rule of the comment and the three shapes say the same. -/
theorem format.shape_ok_iff_invariant (u : format) : u.shape_ok ↔ u.invariant := by
  unfold format.shape_ok format.invariant
  by_cases h1 : u.length = 0 <;> by_cases h2 : u.delimiter = NUL <;> simp [h1, h2]

/-- A unit read after a type letter keeps the rule and carries that letter's
type. -/
theorem parse_unit_tail_invariant (t : data_type) (s r : List Char) (u : format)
    (h : parse_unit_tail t s = .ok (u, r)) : u.invariant := by
  unfold parse_unit_tail at h
  split at h
  · cases h
    simp [format.invariant]
  · split_ifs at h with h1 h2
    · split at h
      · cases h
      · split_ifs at h with h3
        cases h
        simp [format.invariant]
    · split at h
      · split_ifs at h with h3
        cases h
        simp [format.invariant]
      · cases h
    · cases h
      simp [format.invariant]

/-- Copies of a unit sequence hold no unit the sequence does not hold. -/
theorem mem_repeat_units {u : format} {n : Nat} {us : List format}
    (h : u ∈ repeat_units n us) : u ∈ us := by
  induction n with
  | zero => simp [repeat_units] at h
  | succ n ih =>
    simp only [repeat_units, List.mem_append] at h
    rcases h with h | h
    · exact h
    · exact ih h

/-- Every unit of an expansion comes from the body of one of the items. -/
theorem mem_expand {u : format} {items : List format_item} (h : u ∈ expand items) :
    ∃ it ∈ items, u ∈ it.body := by
  induction items with
  | nil => simp [expand] at h
  | cons it rest ih =>
    simp only [expand, List.mem_append] at h
    rcases h with h | h
    · exact ⟨it, List.mem_cons_self _ _, mem_repeat_units h⟩
    · obtain ⟨it2, hmem, hu⟩ := ih h
      exact ⟨it2, List.mem_cons_of_mem _ hmem, hu⟩

/-- Every unit of the laid-out sequence comes from the body of one of the
items. -/
theorem mem_layout {u : format} {items : List format_item} (h : u ∈ (layout items).1) :
    ∃ it ∈ items, u ∈ it.body := by
  unfold layout at h
  split at h
  · simp at h
  · rename_i last hlast
    split_ifs at h with hg
    · simp only [List.mem_append] at h
      rcases h with h | h
      · obtain ⟨it, hmem, hu⟩ := mem_expand h
        exact ⟨it, List.dropLast_subset _ hmem, hu⟩
      · exact ⟨last, List.mem_of_getLast?_eq_some hlast, h⟩
    · exact mem_expand h

/-- What holds of every unit read after a type letter holds of every unit in
the items `parse_items` returns. -/
theorem parse_items_all (P : format → Prop)
    (hP : ∀ (t : data_type) (s r : List Char) (u : format),
      parse_unit_tail t s = .ok (u, r) → P u) :
    ∀ (fuel : Nat) (s r : List Char) (items : List format_item),
    parse_items fuel s = .ok (items, r) → ∀ it ∈ items, ∀ u ∈ it.body, P u := by
  intro fuel
  induction fuel with
  | zero =>
    intro s r items h
    simp [parse_items] at h
  | succ fuel ih =>
    intro s r items h
    cases s with
    | nil =>
      simp only [parse_items] at h
      cases h
      simp
    | cons c0 s0 =>
      simp only [parse_items] at h
      split_ifs at h with h0
      · cases h
        simp
      · split at h
        · cases h
        · rename_i c rr hdrop
          split_ifs at h with hc
          · split at h
            · cases h
            · cases h
            · rename_i inner c1 r1 hinner
              split_ifs at h with hc1
              · split at h
                · cases h
                · rename_i rest r2 hrest
                  cases h
                  intro it hit u hu
                  rcases List.mem_cons.mp hit with rfl | hit
                  · obtain ⟨it2, hmem, hu2⟩ := mem_expand hu
                    exact ih _ _ _ hinner it2 hmem u hu2
                  · exact ih _ _ _ hrest it hit u hu
          · split at h
            · cases h
            · rename_i t ht
              split at h
              · cases h
              · rename_i u0 r1 hunit
                split at h
                · cases h
                · rename_i rest r2 hrest
                  cases h
                  intro it hit u hu
                  rcases List.mem_cons.mp hit with rfl | hit
                  · simp only [List.mem_singleton] at hu
                    subst hu
                    exact hP _ _ _ _ hunit
                  · exact ih _ _ _ hrest it hit u hu

/-- Every unit in the items `parse_items` returns keeps the rule. -/
theorem parse_items_invariant (fuel : Nat) (s r : List Char) (items : List format_item)
    (h : parse_items fuel s = .ok (items, r)) : ∀ it ∈ items, ∀ u ∈ it.body, u.invariant :=
  parse_items_all format.invariant parse_unit_tail_invariant fuel s r items h

/-- C4: every format unit the format parser produces has `length` and
`delimiter` not both nonzero: exactly one of them is nonzero (fixed width, or
explicitly delimited), or both are zero (delimited by the unit terminator). -/
theorem parse_format_units_invariant (s : List Char) (units : List format) (rep : Nat)
    (h : parse_format s = .ok (units, rep)) :
    ∀ u ∈ units, ¬ (u.length ≠ 0 ∧ u.delimiter ≠ NUL) ∧
      ((u.length ≠ 0 ∧ u.delimiter = NUL) ∨ (u.length = 0 ∧ u.delimiter ≠ NUL) ∨
        (u.length = 0 ∧ u.delimiter = NUL)) := by
  intro u hu
  have key : u.invariant := by
    unfold parse_format at h
    split at h
    · cases h
    · rename_i items hitems
      have hl : layout items = (units, rep) := by injection h
      have hu2 : u ∈ (layout items).1 := by rw [hl]; exact hu
      obtain ⟨it, hmem, hbody⟩ := mem_layout hu2
      exact parse_items_invariant _ _ _ _ hitems it hmem u hbody
    · cases h
  exact ⟨key, (format.shape_ok_iff_invariant u).mpr key⟩

/-- The spec `A(,)2(I(4)R)3(S(2))` parses to a comma-delimited unit, two copies
of a fixed-width and a terminator-delimited unit, and the final group; each of
the six units keeps the rule. -/
theorem parse_format_units_invariant_witness :
    parse_format "A(,)2(I(4)R)3(S(2))".toList =
      .ok ([⟨.CHAR, 0, ','⟩, ⟨.INT, 4, NUL⟩, ⟨.FLOAT, 0, NUL⟩, ⟨.INT, 4, NUL⟩,
        ⟨.FLOAT, 0, NUL⟩, ⟨.EXP_FLOAT, 2, NUL⟩], 5) ∧
    ∀ u ∈ ([⟨.CHAR, 0, ','⟩, ⟨.INT, 4, NUL⟩, ⟨.FLOAT, 0, NUL⟩, ⟨.INT, 4, NUL⟩,
        ⟨.FLOAT, 0, NUL⟩, ⟨.EXP_FLOAT, 2, NUL⟩] : List format),
      ¬ (u.length ≠ 0 ∧ u.delimiter ≠ NUL) ∧
      ((u.length ≠ 0 ∧ u.delimiter = NUL) ∨ (u.length = 0 ∧ u.delimiter ≠ NUL) ∨
        (u.length = 0 ∧ u.delimiter = NUL)) :=
  ⟨by decide, parse_format_units_invariant "A(,)2(I(4)R)3(S(2))".toList _ 5 (by decide)⟩

/-! ### Repeat counts on fixed-width units -/

/-- The character of a digit below ten is a digit with that value. -/
theorem digitChar_digit (m : Nat) (hm : m < 10) :
    (Nat.digitChar m).isDigit = true ∧ digit_value (Nat.digitChar m) = m := by
  interval_cases m <;> exact ⟨by decide, by decide⟩

/-- Reading a digit run with one more digit in front of an accumulated value. -/
theorem foldl_decimal (ds : List Char) (a : Nat) :
    ds.foldl (fun acc c => 10 * acc + digit_value c) a =
      a * 10 ^ ds.length + decimal_value ds := by
  induction ds generalizing a with
  | nil => simp [decimal_value]
  | cons d ds ih =>
    simp only [decimal_value, List.foldl_cons, List.length_cons]
    rw [ih (10 * a + digit_value d), ih (10 * 0 + digit_value d)]
    ring

/-- The value of a digit followed by a digit run. -/
theorem decimal_value_cons (d : Char) (ds : List Char) :
    decimal_value (d :: ds) = digit_value d * 10 ^ ds.length + decimal_value ds := by
  simp only [decimal_value, List.foldl_cons]
  rw [foldl_decimal]
  simp [decimal_value]

/-- With enough fuel `Nat.toDigitsCore` puts in front of the accumulator a
decimal writing of `n`, whose length does not depend on the accumulator. -/
theorem toDigitsCore_writes (fuel : Nat) : ∀ (n : Nat), n < fuel →
    ∃ ds, writes ds n ∧ ∀ acc, Nat.toDigitsCore 10 fuel n acc = ds ++ acc := by
  induction fuel with
  | zero => intro n h; omega
  | succ fuel ih =>
    intro n hn
    obtain ⟨hdig, hval⟩ := digitChar_digit (n % 10) (Nat.mod_lt _ (by decide))
    by_cases hq : n / 10 = 0
    · refine ⟨[Nat.digitChar (n % 10)], ⟨by simp, ?_, ?_⟩, ?_⟩
      · intro c hc
        rw [List.mem_singleton.mp hc]
        exact hdig
      · have hmod : n % 10 = n := Nat.mod_eq_of_lt (by omega)
        simp only [decimal_value, List.foldl_cons, List.foldl_nil, hval]
        omega
      · intro acc
        simp [Nat.toDigitsCore, hq]
    · obtain ⟨ds, ⟨hne, hall, hv⟩, hcore⟩ := ih (n / 10) (by omega)
      refine ⟨ds ++ [Nat.digitChar (n % 10)], ⟨by simp, ?_, ?_⟩, ?_⟩
      · intro c hc
        rcases List.mem_append.mp hc with h | h
        · exact hall c h
        · rw [List.mem_singleton.mp h]
          exact hdig
      · simp only [decimal_value, List.foldl_append, List.foldl_cons, List.foldl_nil]
        change 10 * decimal_value ds + _ = n
        rw [hv, hval]
        omega
      · intro acc
        simp [Nat.toDigitsCore, hq, hcore]

/-- The decimal digits core prints for `n` are a decimal writing of `n`. -/
theorem toDigits_writes (n : Nat) : writes (Nat.toDigits 10 n) n := by
  obtain ⟨ds, hw, hcore⟩ := toDigitsCore_writes (n + 1) n (Nat.lt_succ_self n)
  have : Nat.toDigits 10 n = ds := by
    unfold Nat.toDigits
    rw [hcore []]
    simp
  rw [this]
  exact hw

/-- A digit run stops at the first character that is no digit. -/
theorem takeWhile_digits (ds : List Char) (c : Char) (r : List Char)
    (hds : ∀ x ∈ ds, x.isDigit = true) (hc : c.isDigit = false) :
    (ds ++ c :: r).takeWhile Char.isDigit = ds := by
  induction ds with
  | nil => simp [List.takeWhile, hc]
  | cons d ds ih =>
    have hd : d.isDigit = true := hds d (List.mem_cons_self _ _)
    rw [List.cons_append, List.takeWhile_cons_of_pos hd,
      ih (fun x hx => hds x (List.mem_cons_of_mem _ hx))]

/-- What follows a digit run starts at the first character that is no digit. -/
theorem dropWhile_digits (ds : List Char) (c : Char) (r : List Char)
    (hds : ∀ x ∈ ds, x.isDigit = true) (hc : c.isDigit = false) :
    (ds ++ c :: r).dropWhile Char.isDigit = c :: r := by
  induction ds with
  | nil => simp [List.dropWhile, hc]
  | cons d ds ih =>
    have hd : d.isDigit = true := hds d (List.mem_cons_self _ _)
    rw [List.cons_append, List.dropWhile_cons_of_pos hd]
    exact ih (fun x hx => hds x (List.mem_cons_of_mem _ hx))

/-- A type letter is read back as its type; it is no digit, no parenthesis
and no field terminator. -/
theorem letter_facts (t : data_type) :
    letter_type t.letter = some t ∧ t.letter.isDigit = false ∧ t.letter ≠ '(' ∧
      t.letter ≠ ')' ∧ (t.letter != FIELD_TERM) = true := by
  cases t <;> decide

/-- A digit is no closing parenthesis and no field terminator. -/
theorem digit_facts (c : Char) (h : c.isDigit = true) :
    c ≠ ')' ∧ (c != FIELD_TERM) = true := by
  constructor
  · rintro rfl
    exact absurd h (by decide)
  · rw [bne_iff_ne]
    rintro rfl
    exact absurd h (by decide)

/-- Repeating a one-unit sequence `n` times gives that unit `n` times. -/
theorem repeat_units_singleton (n : Nat) (u : format) :
    repeat_units n [u] = List.replicate n u := by
  induction n with
  | zero => rfl
  | succ n ih => simp [repeat_units, ih, List.replicate_succ]

/-- A parenthesised decimal width after a type letter gives a fixed-width unit
of that width with no delimiter. -/
theorem parse_unit_tail_width (t : data_type) (ws : List Char) (w : Nat) (r : List Char)
    (hw : writes ws w) :
    parse_unit_tail t ('(' :: (ws ++ ')' :: r)) = .ok (⟨t, to_int w, NUL⟩, r) := by
  obtain ⟨hne, hall, hv⟩ := hw
  have hclose : (')' : Char).isDigit = false := by decide
  simp only [parse_unit_tail, if_true, takeWhile_digits ws ')' r hall hclose,
    dropWhile_digits ws ')' r hall hclose, ne_eq, hne, not_false_eq_true, hv]

/-- A counted fixed-width unit in front of a format spec: the parser reads it
as one item with that count whose body is the single unit, then goes on with
the rest. -/
theorem parse_items_counted_unit (fuel : Nat) (ns ws : List Char) (N w : Nat) (t : data_type)
    (rest r : List Char) (items : List format_item)
    (hn : writes ns N) (hw : writes ws w)
    (h : parse_items fuel rest = .ok (items, r)) :
    parse_items (fuel + 1) (ns ++ t.letter :: '(' :: (ws ++ ')' :: rest)) =
      .ok (⟨N, [⟨t, to_int w, NUL⟩], false⟩ :: items, r) := by
  obtain ⟨hlt, hld, hlo, hlc, _⟩ := letter_facts t
  have htake := takeWhile_digits ns t.letter ('(' :: (ws ++ ')' :: rest)) hn.2.1 hld
  have hdrop := dropWhile_digits ns t.letter ('(' :: (ws ++ ')' :: rest)) hn.2.1 hld
  have hcount : repeat_count ns = N := by
    unfold repeat_count
    rw [if_neg hn.1, hn.2.2]
  obtain ⟨d, ns2, rfl⟩ := List.exists_cons_of_ne_nil hn.1
  have hd : d ≠ ')' := (digit_facts d (hn.2.1 d (List.mem_cons_self _ _))).1
  rw [List.cons_append] at htake hdrop ⊢
  simp only [parse_items, if_neg hd, htake, hdrop, if_neg hlo, hlt, hcount,
    parse_unit_tail_width t ws w rest hw, h]

/-! ### The bound on the number of items is never reached -/

/-- The tail of a unit leaves no more input than it was given. -/
theorem parse_unit_tail_rest (t : data_type) (s r : List Char) (u : format)
    (h : parse_unit_tail t s = .ok (u, r)) : r.length ≤ s.length := by
  unfold parse_unit_tail at h
  split at h
  · cases h
    simp
  · rename_i c r0
    split_ifs at h with h1 h2
    · split at h
      · cases h
      · rename_i c1 r1 hdrop
        split_ifs at h with h3
        cases h
        have hle := (List.dropWhile_suffix (l := r0) Char.isDigit).length_le
        rw [hdrop] at hle
        simp only [List.length_cons] at hle ⊢
        omega
    · split at h
      · split_ifs at h with h3
        cases h
        simp only [List.length_cons]
        omega
      · cases h
    · cases h
      simp

/-- The items of a level leave no more input than they were given. -/
theorem parse_items_rest : ∀ (fuel : Nat) (s r : List Char) (items : List format_item),
    parse_items fuel s = .ok (items, r) → r.length ≤ s.length := by
  intro fuel
  induction fuel with
  | zero =>
    intro s r items h
    simp [parse_items] at h
  | succ fuel ih =>
    intro s r items h
    cases s with
    | nil =>
      simp only [parse_items] at h
      cases h
      simp
    | cons c0 s0 =>
      simp only [parse_items] at h
      split_ifs at h with h0
      · cases h
        simp
      · split at h
        · cases h
        · rename_i c rr hdrop
          have hle := (List.dropWhile_suffix (l := c0 :: s0) Char.isDigit).length_le
          rw [hdrop] at hle
          simp only [List.length_cons] at hle
          split_ifs at h with hc
          · split at h
            · cases h
            · cases h
            · rename_i inner c1 r1 hinner
              split_ifs at h with hc1
              · split at h
                · cases h
                · rename_i rest r2 hrest
                  cases h
                  have h1 := ih _ _ _ hinner
                  have h2 := ih _ _ _ hrest
                  simp only [List.length_cons] at h1 ⊢
                  omega
          · split at h
            · cases h
            · rename_i t ht
              split at h
              · cases h
              · rename_i u0 r1 hunit
                split at h
                · cases h
                · rename_i rest r2 hrest
                  cases h
                  have h1 := parse_unit_tail_rest _ _ _ _ hunit
                  have h2 := ih _ _ _ hrest
                  simp only [List.length_cons]
                  omega

/-- Any two bounds above the length of the input give the same result: the
bound `parse_format` passes is never what stops the parser. -/
theorem parse_items_fuel : ∀ (f g : Nat) (s : List Char), s.length < f → s.length < g →
    parse_items f s = parse_items g s := by
  intro f
  induction f with
  | zero => intro g s hf; omega
  | succ f ih =>
    intro g s hf hg
    obtain ⟨g, rfl⟩ : ∃ k, g = k + 1 := ⟨g - 1, by omega⟩
    cases s with
    | nil => simp [parse_items]
    | cons c0 s0 =>
      simp only [List.length_cons] at hf hg
      simp only [parse_items]
      by_cases h0 : c0 = ')'
      · simp [h0]
      · simp only [if_neg h0]
        have hle := (List.dropWhile_suffix (l := c0 :: s0) Char.isDigit).length_le
        cases hdrop : List.dropWhile Char.isDigit (c0 :: s0) with
        | nil => rfl
        | cons c rr =>
          rw [hdrop] at hle
          simp only [List.length_cons] at hle
          simp only []
          by_cases hc : c = '('
          · simp only [if_pos hc]
            rw [ih g rr (by omega) (by omega)]
            cases hinner : parse_items g rr with
            | error e => rfl
            | ok res =>
              obtain ⟨inner, r1⟩ := res
              cases r1 with
              | nil => rfl
              | cons c1 r1 =>
                have h1 := parse_items_rest _ _ _ _ hinner
                simp only [List.length_cons] at h1
                simp only []
                rw [ih g r1 (by omega) (by omega)]
          · simp only [if_neg hc]
            cases ht : letter_type c with
            | none => rfl
            | some t =>
              simp only []
              cases hunit : parse_unit_tail t rr with
              | error e => rfl
              | ok res =>
                obtain ⟨u0, r1⟩ := res
                have h1 := parse_unit_tail_rest _ _ _ _ hunit
                simp only []
                rw [ih g r1 (by omega) (by omega)]

/-- A string that holds no field terminator is read whole. -/
theorem takeWhile_no_terminator (s : List Char) (h : ∀ c ∈ s, (c != FIELD_TERM) = true) :
    s.takeWhile (· != FIELD_TERM) = s := by
  induction s with
  | nil => rfl
  | cons c s ih =>
    have hc := h c (List.mem_cons_self _ _)
    simp only [List.takeWhile_cons, hc, if_true]
    rw [ih (fun x hx => h x (List.mem_cons_of_mem _ hx))]

/-! ### A counted unit anywhere in a format spec -/

/-- A width that fits an `int` is stored as it is. -/
theorem to_int_of_lt (w : Nat) (h : w < 2 ^ 31) : to_int (w : Int) = w := by
  unfold to_int
  have h1 : (0 : Int) ≤ (w : Int) + 2 ^ 31 := by positivity
  have h2 : (w : Int) + 2 ^ 31 < 2 ^ 32 := by
    have : (w : Int) < 2 ^ 31 := by exact_mod_cast h
    linarith
  rw [Int.emod_eq_of_lt h1 h2]
  ring

/-- What `to_int` gives is in the range of `int`. -/
theorem to_int_range (n : Int) : -2 ^ 31 ≤ to_int n ∧ to_int n < 2 ^ 31 := by
  unfold to_int
  have h1 := Int.emod_nonneg (n + 2 ^ 31) (b := 2 ^ 32) (by norm_num)
  have h2 := Int.emod_lt_of_pos (n + 2 ^ 31) (b := 2 ^ 32) (by norm_num)
  constructor <;> linarith

/-- A digit run that ends inside a string ends at the same place when more
text follows the string. -/
theorem digits_then_more (s X : List Char) (c : Char) (r : List Char)
    (h : s.dropWhile Char.isDigit = c :: r) :
    (s ++ X).dropWhile Char.isDigit = c :: (r ++ X) ∧
      (s ++ X).takeWhile Char.isDigit = s.takeWhile Char.isDigit := by
  induction s with
  | nil => simp at h
  | cons d s ih =>
    by_cases hd : d.isDigit = true
    · rw [List.dropWhile_cons_of_pos hd] at h
      obtain ⟨h1, h2⟩ := ih h
      rw [List.cons_append, List.dropWhile_cons_of_pos hd, List.takeWhile_cons_of_pos hd,
        List.takeWhile_cons_of_pos hd, h1, h2]
      exact ⟨rfl, rfl⟩
    · rw [List.dropWhile_cons_of_neg hd] at h
      rw [List.cons_append, List.dropWhile_cons_of_neg hd, List.takeWhile_cons_of_neg hd,
        List.takeWhile_cons_of_neg hd]
      cases h
      exact ⟨rfl, rfl⟩

/-- The tail of a unit is read the same way when more text follows, as long as
that text does not open a parenthesis. -/
theorem parse_unit_tail_append (t : data_type) (s r X : List Char) (u : format)
    (h : parse_unit_tail t s = .ok (u, r)) (hX : X.head? ≠ some '(') :
    parse_unit_tail t (s ++ X) = .ok (u, r ++ X) := by
  cases s with
  | nil =>
    simp only [parse_unit_tail] at h
    cases h
    cases X with
    | nil => rfl
    | cons x X =>
      have hx : x ≠ '(' := by
        intro hx
        exact hX (by simp [hx])
      simp [parse_unit_tail, hx]
  | cons c s =>
    simp only [parse_unit_tail] at h
    rw [List.cons_append]
    simp only [parse_unit_tail]
    split_ifs at h with h1 h2
    · split at h
      · cases h
      · rename_i c1 r1 hdrop
        split_ifs at h with h3
        cases h
        obtain ⟨e1, e2⟩ := digits_then_more s X _ _ hdrop
        simp only [if_pos h1, e1, e2, ne_eq, h2, not_false_eq_true, if_true, if_pos h3]
    · split at h
      · rename_i d c1 r1
        split_ifs at h with h3
        cases h
        have hd : ¬ d.isDigit = true := by
          intro hd
          apply h2
          simp [List.takeWhile_cons_of_pos hd]
        simp only [if_pos h1, List.cons_append, List.takeWhile_cons_of_neg hd, ne_eq,
          not_true_eq_false, if_false, if_true, if_pos h3]
      · cases h
    · cases h
      simp only [if_neg h1, List.cons_append]

/-- Putting nothing in front changes nothing. -/
theorem prepend_items_nil (x : Except error_kind (List format_item × List Char)) :
    prepend_items [] x = x := by
  rcases x with e | ⟨more, r⟩ <;> simp [prepend_items]

/-- A level is read the same way when more text follows it: if the level stopped
at a closing parenthesis it still stops there, and if it took the whole string
the parser goes on with the text that follows. -/
theorem parse_items_append : ∀ (f : Nat) (s : List Char) (items : List format_item)
    (rem : List Char), parse_items f s = .ok (items, rem) →
    ∀ (X : List Char), X.head? ≠ some '(' → ∀ (F : Nat), (s ++ X).length < F →
    parse_items F (s ++ X) =
      if rem = [] then prepend_items items (parse_items F X) else .ok (items, rem ++ X) := by
  intro f
  induction f with
  | zero =>
    intro s items rem h
    simp [parse_items] at h
  | succ f ih =>
    intro s items rem h X hX F hF
    cases s with
    | nil =>
      simp only [parse_items] at h
      cases h
      simp [prepend_items_nil]
    | cons c0 s0 =>
      obtain ⟨F, rfl⟩ : ∃ k, F = k + 1 := ⟨F - 1, by omega⟩
      simp only [List.cons_append, List.length_cons, List.length_append] at hF
      simp only [parse_items] at h
      split_ifs at h with h0
      · cases h
        simp [parse_items, h0]
      · split at h
        · cases h
        · rename_i c rr hdrop
          obtain ⟨e1, e2⟩ := digits_then_more (c0 :: s0) X _ _ hdrop
          rw [List.cons_append] at e1 e2
          have hle := (List.dropWhile_suffix (l := c0 :: s0) Char.isDigit).length_le
          rw [hdrop] at hle
          simp only [List.length_cons] at hle
          have hfuel : parse_items (F + 1) X = parse_items F X :=
            parse_items_fuel _ _ _ (by omega) (by omega)
          split_ifs at h with hc
          · split at h
            · cases h
            · cases h
            · rename_i inner c1 r1 hinner
              split_ifs at h with hc1
              split at h
              · cases h
              · rename_i rest r2 hrest
                cases h
                have hr1 := parse_items_rest _ _ _ _ hinner
                simp only [List.length_cons] at hr1
                have a1 := ih rr inner (c1 :: r1) hinner X hX F
                  (by simp only [List.length_append]; omega)
                have a2 := ih r1 rest rem hrest X hX F
                  (by simp only [List.length_append]; omega)
                simp only [reduceCtorEq, if_false, List.cons_append] at a1
                rw [List.cons_append]
                simp only [parse_items, if_neg h0, e1, e2, if_pos hc, a1, if_pos hc1, a2]
                by_cases hr2 : rem = []
                · simp only [hr2, if_true, hfuel]
                  rcases parse_items F X with e | ⟨more, r⟩ <;> simp [prepend_items]
                · simp only [hr2, if_false]
          · split at h
            · cases h
            · rename_i t ht
              split at h
              · cases h
              · rename_i u0 r1 hunit
                split at h
                · cases h
                · rename_i rest r2 hrest
                  cases h
                  have hr1 := parse_unit_tail_rest _ _ _ _ hunit
                  have a1 := parse_unit_tail_append t rr r1 X u0 hunit hX
                  have a2 := ih r1 rest rem hrest X hX F
                    (by simp only [List.length_append]; omega)
                  rw [List.cons_append]
                  simp only [parse_items, if_neg h0, e1, e2, if_neg hc, ht, a1, a2]
                  by_cases hr2 : rem = []
                  · simp only [hr2, if_true, hfuel]
                    rcases parse_items F X with e | ⟨more, r⟩ <;> simp [prepend_items]
                  · simp only [hr2, if_false]

/-- Expanding two item sequences one after the other. -/
theorem expand_append (a b : List format_item) : expand (a ++ b) = expand a ++ expand b := by
  induction a with
  | nil => rfl
  | cons it a ih => simp [expand, ih]

/-- The layout of a sequence with a known last item. -/
theorem layout_concat (init : List format_item) (last : format_item) :
    layout (init ++ [last]) =
      if last.is_group then (expand init ++ last.body, (expand init).length)
      else (expand (init ++ [last]), 0) := by
  simp [layout]

/-- An item that is no group, put between two item sequences, adds its copies
between their units; the index of the final group moves by what stands before
that group. -/
theorem layout_insert (ipre irest : List format_item) (it : format_item)
    (hit : it.is_group = false) :
    layout (ipre ++ it :: irest) =
      (expand ipre ++ repeat_units it.count it.body ++ (layout irest).1,
        if ends_in_group irest then
          (expand ipre).length + (repeat_units it.count it.body).length + (layout irest).2
        else 0) := by
  rcases List.eq_nil_or_concat irest with rfl | ⟨init, last, rfl⟩
  · have h := layout_concat ipre it
    rw [hit] at h
    simp only [Bool.false_eq_true, if_false] at h
    rw [h, expand_append]
    simp [expand, layout, ends_in_group]
  · rw [List.concat_eq_append]
    have h := layout_concat (ipre ++ it :: init) last
    rw [List.append_assoc, List.cons_append] at h
    rw [h, layout_concat init last]
    by_cases hg : last.is_group = true
    · simp [hg, ends_in_group, expand_append, expand, Nat.add_assoc]
    · simp [hg, ends_in_group, expand_append, expand]

/-- A string read whole as one level is what `parse_items` reads with the bound
`parse_format` uses. -/
theorem level_items_eq (s : List Char) (items : List format_item)
    (h : level_items s = some items) : parse_items (s.length + 1) s = .ok (items, []) := by
  unfold level_items at h
  split at h
  · rename_i its heq
    cases h
    exact heq
  · cases h

/-- A counted fixed-width unit between two stretches of a level: the parser
reads the items before it, then the unit as one item with its count, then the
items after it, whatever the level ends with. -/
theorem parse_items_counted_unit_between (N w : Nat) (t : data_type)
    (pre rest rem : List Char) (ipre irest : List format_item)
    (hpre : level_items pre = some ipre)
    (hrest : parse_items (rest.length + 1) rest = .ok (irest, rem))
    (F : Nat) (hF : (pre ++ (counted_unit N t w ++ rest)).length < F) :
    parse_items F (pre ++ (counted_unit N t w ++ rest)) =
      .ok (ipre ++ ⟨N, [⟨t, to_int w, NUL⟩], false⟩ :: irest, rem) := by
  have hn := toDigits_writes N
  have hw := toDigits_writes w
  have hshape : counted_unit N t w ++ rest =
      Nat.toDigits 10 N ++ t.letter :: '(' :: (Nat.toDigits 10 w ++ ')' :: rest) := by
    simp [counted_unit]
  obtain ⟨d, ns, hns⟩ := List.exists_cons_of_ne_nil hn.1
  have hhead : (counted_unit N t w ++ rest).head? ≠ some '(' := by
    rw [hshape, hns]
    have hd : d.isDigit = true := hn.2.1 d (by rw [hns]; exact List.mem_cons_self _ _)
    simp only [List.cons_append, List.head?_cons, ne_eq, Option.some.injEq]
    rintro rfl
    exact absurd hd (by decide)
  have hlen : (pre ++ (counted_unit N t w ++ rest)).length =
      pre.length + ((Nat.toDigits 10 N).length + ((Nat.toDigits 10 w).length + rest.length + 3)) := by
    rw [hshape]
    simp only [List.length_append, List.length_cons]
    omega
  obtain ⟨F, rfl⟩ : ∃ k, F = k + 1 := ⟨F - 1, by omega⟩
  have hrestF : parse_items F rest = .ok (irest, rem) := by
    rw [parse_items_fuel F (rest.length + 1) rest (by omega) (by omega)]
    exact hrest
  have hunit := parse_items_counted_unit F (Nat.toDigits 10 N) (Nat.toDigits 10 w) N w t rest rem
    irest hn hw hrestF
  rw [← hshape] at hunit
  have happ := parse_items_append (pre.length + 1) pre ipre [] (level_items_eq pre ipre hpre)
    (counted_unit N t w ++ rest) hhead (F + 1) hF
  rw [happ, hunit]
  simp [prepend_items]

/-- The characters of a counted unit are not field terminators. -/
theorem counted_unit_no_terminator (N w : Nat) (t : data_type) :
    ∀ c ∈ counted_unit N t w, (c != FIELD_TERM) = true := by
  intro c hc
  have hn := toDigits_writes N
  have hw := toDigits_writes w
  simp only [counted_unit, List.mem_append, List.mem_cons, List.mem_singleton,
    List.not_mem_nil, or_false] at hc
  rcases hc with h | rfl | rfl | h | rfl
  · exact (digit_facts c (hn.2.1 c h)).2
  · exact (letter_facts t).2.2.2.2
  · decide
  · exact (digit_facts c (hw.2.1 c h)).2
  · decide

/-- A counted fixed-width unit anywhere at the top level of a format spec: the
parser gives the units of what stands before it, then `N` units of the type and
width written, then the units of what follows. -/
theorem parse_format_counted_unit_between (N w : Nat) (t : data_type)
    (pre rest : List Char) (ipre irest : List format_item)
    (hw : w < 2 ^ 31)
    (hpre : level_items pre = some ipre) (hrest : level_items rest = some irest)
    (hpt : FIELD_TERM ∉ pre) (hrt : FIELD_TERM ∉ rest) :
    parse_format (pre ++ (counted_unit N t w ++ rest)) =
      .ok (expand ipre ++ List.replicate N ⟨t, w, NUL⟩ ++ (layout irest).1,
        if ends_in_group irest then (expand ipre).length + N + (layout irest).2 else 0) := by
  have hwhole : (pre ++ (counted_unit N t w ++ rest)).takeWhile (· != FIELD_TERM) =
      pre ++ (counted_unit N t w ++ rest) := by
    apply takeWhile_no_terminator
    intro c hc
    rcases List.mem_append.mp hc with h | h
    · rw [bne_iff_ne]
      rintro rfl
      exact hpt h
    · rcases List.mem_append.mp h with h | h
      · exact counted_unit_no_terminator N w t c h
      · rw [bne_iff_ne]
        rintro rfl
        exact hrt h
  have hitems := parse_items_counted_unit_between N w t pre rest [] ipre irest hpre
    (level_items_eq rest irest hrest) _ (Nat.lt_succ_self _)
  unfold parse_format
  rw [hwhole, hitems]
  simp only []
  rw [layout_insert ipre irest _ rfl]
  simp only [repeat_units_singleton, to_int_of_lt w hw, List.length_replicate]

/-- A counted fixed-width unit anywhere inside a parenthesised group that is
the whole format spec: the group holds the units of what stands before the
unit, then `N` units of the type and width written, then the units of what
follows. -/
theorem parse_format_counted_unit_in_group (N w : Nat) (t : data_type)
    (pre rest : List Char) (ipre irest : List format_item)
    (hw : w < 2 ^ 31)
    (hpre : level_items pre = some ipre) (hrest : level_items rest = some irest)
    (hpt : FIELD_TERM ∉ pre) (hrt : FIELD_TERM ∉ rest) :
    parse_format ('(' :: (pre ++ (counted_unit N t w ++ (rest ++ [')'])))) =
      .ok (expand ipre ++ List.replicate N ⟨t, w, NUL⟩ ++ expand irest, 0) := by
  have hwhole : ('(' :: (pre ++ (counted_unit N t w ++ (rest ++ [')'])))).takeWhile
      (· != FIELD_TERM) = '(' :: (pre ++ (counted_unit N t w ++ (rest ++ [')']))) := by
    apply takeWhile_no_terminator
    intro c hc
    rcases List.mem_cons.mp hc with rfl | hc
    · decide
    rcases List.mem_append.mp hc with h | h
    · rw [bne_iff_ne]
      rintro rfl
      exact hpt h
    · rcases List.mem_append.mp h with h | h
      · exact counted_unit_no_terminator N w t c h
      · rcases List.mem_append.mp h with h | h
        · rw [bne_iff_ne]
          rintro rfl
          exact hrt h
        · rw [List.mem_singleton.mp h]
          decide
  have hclose : parse_items ((rest ++ [')']).length + 1) (rest ++ [')']) =
      .ok (irest, [')']) := by
    have h := parse_items_append (rest.length + 1) rest irest [] (level_items_eq rest irest hrest)
      [')'] (by decide) ((rest ++ [')']).length + 1) (Nat.lt_succ_self _)
    rw [h]
    simp [parse_items, prepend_items]
  have hinner := parse_items_counted_unit_between N w t pre (rest ++ [')']) [')'] ipre irest
    hpre hclose ((pre ++ (counted_unit N t w ++ (rest ++ [')']))).length + 1) (by omega)
  have hopen : ¬ ('(' : Char) = ')' := by decide
  have hdig : ¬ ('(' : Char).isDigit = true := by decide
  unfold parse_format
  rw [hwhole]
  simp only [List.length_cons, parse_items, if_neg hopen, List.dropWhile_cons_of_neg hdig,
    List.takeWhile_cons_of_neg hdig, if_true, hinner]
  simp [repeat_count, layout, expand, repeat_units, expand_append,
    repeat_units_singleton, to_int_of_lt w hw]

/-- The `length` of a unit read after a type letter is in the range of `int`. -/
theorem parse_unit_tail_length_range (t : data_type) (s r : List Char) (u : format)
    (h : parse_unit_tail t s = .ok (u, r)) : -2 ^ 31 ≤ u.length ∧ u.length < 2 ^ 31 := by
  unfold parse_unit_tail at h
  split at h
  · cases h
    norm_num
  · split_ifs at h with h1 h2
    · split at h
      · cases h
      · split_ifs at h with h3
        cases h
        exact to_int_range _
    · split at h
      · split_ifs at h with h3
        cases h
        norm_num
      · cases h
    · cases h
      norm_num

/-- Every unit the format parser produces has a `length` in the range of
`int`, whatever width the format spec writes. -/
theorem parse_format_length_range (s : List Char) (units : List format) (rep : Nat)
    (h : parse_format s = .ok (units, rep)) :
    ∀ u ∈ units, -2 ^ 31 ≤ u.length ∧ u.length < 2 ^ 31 := by
  intro u hu
  unfold parse_format at h
  split at h
  · cases h
  · rename_i items hitems
    have hl : layout items = (units, rep) := by injection h
    have hu2 : u ∈ (layout items).1 := by rw [hl]; exact hu
    obtain ⟨it, hmem, hbody⟩ := mem_layout hu2
    exact parse_items_all _ parse_unit_tail_length_range _ _ _ _ hitems it hmem u hbody
  · cases h

/-- A width of 2^31, one more than an `int` holds, is stored as -2^31. -/
theorem parse_format_width_wraps :
    parse_format "1I(2147483648)".toList = .ok ([⟨.INT, -2147483648, NUL⟩], 0) := by
  decide

/-- C5: the format spec `2I(4)` parses to exactly two units, each INT of length
4 with no delimiter, and `4I(7)` to four INT units of length 7.  In general a
leading repeat count N on a fixed-width unit of width w (a width an `int`
holds, w < 2^31) yields exactly N units of that type and width with no
delimiter: when the counted unit is the whole spec, when it stands anywhere
at the top level between items before it and items after it (the units of
both stay around the N copies), and when it stands anywhere inside a
parenthesised group. -/
theorem parse_format_repeat_fixed_width :
    parse_format "2I(4)".toList = .ok ([⟨.INT, 4, NUL⟩, ⟨.INT, 4, NUL⟩], 0) ∧
    parse_format "4I(7)".toList =
      .ok ([⟨.INT, 7, NUL⟩, ⟨.INT, 7, NUL⟩, ⟨.INT, 7, NUL⟩, ⟨.INT, 7, NUL⟩], 0) ∧
    parse_format "2I(4)A".toList =
      .ok ([⟨.INT, 4, NUL⟩, ⟨.INT, 4, NUL⟩, ⟨.CHAR, 0, NUL⟩], 0) ∧
    parse_format "A(,)3(2I(4)R)(X)".toList =
      .ok ([⟨.CHAR, 0, ','⟩,
        ⟨.INT, 4, NUL⟩, ⟨.INT, 4, NUL⟩, ⟨.FLOAT, 0, NUL⟩,
        ⟨.INT, 4, NUL⟩, ⟨.INT, 4, NUL⟩, ⟨.FLOAT, 0, NUL⟩,
        ⟨.INT, 4, NUL⟩, ⟨.INT, 4, NUL⟩, ⟨.FLOAT, 0, NUL⟩,
        ⟨.IGNORE, 0, NUL⟩], 10) ∧
    (counted_unit 2 .INT 4 = "2I(4)".toList ∧ counted_unit 4 .INT 7 = "4I(7)".toList) ∧
    (∀ (N w : Nat) (t : data_type), w < 2 ^ 31 →
      parse_format (counted_unit N t w) = .ok (List.replicate N ⟨t, w, NUL⟩, 0)) ∧
    (∀ (N w : Nat) (t : data_type) (pre rest : List Char) (ipre irest : List format_item),
      w < 2 ^ 31 → level_items pre = some ipre → level_items rest = some irest →
      FIELD_TERM ∉ pre → FIELD_TERM ∉ rest →
      parse_format (pre ++ (counted_unit N t w ++ rest)) =
        .ok (expand ipre ++ List.replicate N ⟨t, w, NUL⟩ ++ (layout irest).1,
          if ends_in_group irest then (expand ipre).length + N + (layout irest).2 else 0)) ∧
    (∀ (N w : Nat) (t : data_type) (pre rest : List Char) (ipre irest : List format_item),
      w < 2 ^ 31 → level_items pre = some ipre → level_items rest = some irest →
      FIELD_TERM ∉ pre → FIELD_TERM ∉ rest →
      parse_format ('(' :: (pre ++ (counted_unit N t w ++ (rest ++ [')'])))) =
        .ok (expand ipre ++ List.replicate N ⟨t, w, NUL⟩ ++ expand irest, 0)) := by
  refine ⟨by decide, by decide, by decide, by decide, ⟨by decide, by decide⟩, ?_, ?_, ?_⟩
  · intro N w t hw
    have h := parse_format_counted_unit_between N w t [] [] [] [] hw (by decide) (by decide)
      (by simp) (by simp)
    simpa [expand, layout, ends_in_group] using h
  · intro N w t pre rest ipre irest hw hpre hrest hpt hrt
    exact parse_format_counted_unit_between N w t pre rest ipre irest hw hpre hrest hpt hrt
  · intro N w t pre rest ipre irest hw hpre hrest hpt hrt
    exact parse_format_counted_unit_in_group N w t pre rest ipre irest hw hpre hrest hpt hrt

/-- The spec `A(,)3R(5)2(I(2))`: a delimited unit, then the counted unit `3R(5)`,
then a final group.  The hypotheses hold for these strings, and the parser
gives the delimited unit, three FLOAT units of width 5 and the unit of the
final group, which begins at index 4. -/
theorem parse_format_repeat_fixed_width_witness :
    (5 < 2 ^ 31 ∧
      level_items "A(,)".toList = some [⟨1, [⟨.CHAR, 0, ','⟩], false⟩] ∧
      level_items "2(I(2))".toList = some [⟨2, [⟨.INT, 2, NUL⟩], true⟩] ∧
      FIELD_TERM ∉ "A(,)".toList ∧ FIELD_TERM ∉ "2(I(2))".toList) ∧
    "A(,)".toList ++ (counted_unit 3 .FLOAT 5 ++ "2(I(2))".toList) = "A(,)3R(5)2(I(2))".toList ∧
    parse_format "A(,)3R(5)2(I(2))".toList =
      .ok ([⟨.CHAR, 0, ','⟩, ⟨.FLOAT, 5, NUL⟩, ⟨.FLOAT, 5, NUL⟩, ⟨.FLOAT, 5, NUL⟩,
        ⟨.INT, 2, NUL⟩], 4) :=
  ⟨by decide, by decide,
    (parse_format_repeat_fixed_width.2.2.2.2.2.2.1 3 5 .FLOAT "A(,)".toList "2(I(2))".toList
      [⟨1, [⟨.CHAR, 0, ','⟩], false⟩] [⟨2, [⟨.INT, 2, NUL⟩], true⟩]
      (by decide) (by decide) (by decide) (by decide) (by decide)).trans (by decide)⟩

end ISO8211
